import Mathlib

/-!
Verification of the `ccinp-extractor` page-tree filtering server
(`src/main.rs`), as a shallow embedding in Lean.

The embedding follows the source:
* a PDF page-tree node (`PdfObject` dictionary restricted to the keys the
  program reads) becomes `PTree`: an optional `/Type` name, optional
  `/Contents` stream, optional `/Kids` array, optional `/Count` integer;
* the stateful `FnMut` predicate threaded through `filter_page_tree` becomes
  explicit state passing (`σ → PTree → Bool × σ`);
* `panic!` / `.unwrap()` on `None` become `Except PanicMsg`;
* the byte-level PDF decoding, HTTP machinery and the mutex are external
  collaborators: a document that decoded successfully is given directly as a
  tree (`DocSource`), and the per-request handler body of `main` is modelled
  by `handle`.  A panic that escapes the handler produces no HTTP response,
  which the model records as the distinguished outcome `HttpOutcome.panicked`.
-/

/-- Result of reading one leaf's `/Contents` stream.  `unreadable` covers both
a failing `read_stream()` call and bytes that are not valid UTF-8 (both make
`read_exercise_number` return `None` in `main.rs:103-110`). -/
inductive LeafContent where
  | unreadable
  | text (s : List Char)
  deriving DecidableEq

mutual

/-- A page-tree node, restricted to the dictionary keys the program reads:
`/Type` (a name, or absent — a present-but-not-a-name type also behaves as
absent because of `as_name().ok()` in `main.rs:29-34`), `/Contents`,
`/Kids` and `/Count`. -/
inductive PTree where
  | mk (ty : Option String) (contents : Option LeafContent) (kids : Kids) (count : Option Int)

/-- Presence or absence of the `/Kids` entry (`main.rs:46`). -/
inductive Kids where
  | absent
  | present (l : PTreeList)

/-- The ordered child sequence of a `/Kids` array. -/
inductive PTreeList where
  | nil
  | cons (head : PTree) (tail : PTreeList)

end

/-- The `FilterAction` enum of `main.rs:19-23`. -/
inductive FilterAction where
  | KeepKid
  | RemoveKid
  | Subtree (subtract_count : Int)
  deriving DecidableEq

/-- The two `panic!`/`unwrap` aborts that can fire inside
`filter_page_tree_helper`: an unrecognized `/Type` name (`main.rs:71`) and a
missing (or non-integer) `/Count` on a node that lost descendants
(`main.rs:64`). -/
inductive PanicMsg where
  | invalidType
  | missingCount
  deriving DecidableEq

def PTree.typeName : PTree → Option String
  | .mk ty _ _ _ => ty

def PTree.contentsField : PTree → Option LeafContent
  | .mk _ c _ _ => c

def PTree.kidsField : PTree → Kids
  | .mk _ _ k _ => k

def PTree.countField : PTree → Option Int
  | .mk _ _ _ cnt => cnt

def PTreeList.toList : PTreeList → List PTree
  | .nil => []
  | .cons k rest => k :: rest.toList

def PTreeList.ofList : List PTree → PTreeList
  | [] => .nil
  | k :: rest => .cons k (PTreeList.ofList rest)

mutual

/-- `filter_page_tree_helper` (`main.rs:25-73`).  The in-place mutation of the
node is rendered by returning the updated node next to the `FilterAction`;
the `FnMut` closure is rendered by threading its captured state `σ`.
Branches, in source order: no recognizable `/Type` name → `Subtree 0`
untouched; `"Page"` → ask the predicate, `KeepKid`/`RemoveKid`; `"Pages"` →
fold over the kids (absent `/Kids` skips the loop), then decrement `/Count`
by the accumulated total iff it is positive (a missing `/Count` at that point
is an `unwrap` panic); any other name → `panic!("invalid type in page tree")`. -/
def filter_page_tree_helper {σ : Type} (f : σ → PTree → Bool × σ) :
    PTree → σ → Except PanicMsg (FilterAction × PTree × σ)
  | .mk ty contents kids count, st =>
    match ty with
    | none => .ok (.Subtree 0, .mk ty contents kids count, st)
    | some t =>
      if t = "Page" then
        let (b, st') := f st (.mk ty contents kids count)
        .ok (if b then .KeepKid else .RemoveKid, .mk ty contents kids count, st')
      else if t = "Pages" then
        match kids with
        | .absent => .ok (.Subtree 0, .mk ty contents kids count, st)
        | .present ks =>
          match filterKids f ks st with
          | .error e => .error e
          | .ok (ks', sub, st') =>
            if sub > 0 then
              match count with
              | none => .error .missingCount
              | some c =>
                .ok (.Subtree sub, .mk ty contents (.present ks') (some (c - sub)), st')
            else
              .ok (.Subtree sub, .mk ty contents (.present ks') count, st')
      else .error .invalidType

/-- The child loop of the `"Pages"` branch (`main.rs:46-62`), written as direct
recursion over the child sequence.  Deleting the array element at the current
index and not advancing the index (the `RemoveKid` arm with `continue`) is the
same as dropping the head and continuing with the tail; `kidsLoopIdx` below
renders the loop literally with an index, and the two renderings are proved
to agree. -/
def filterKids {σ : Type} (f : σ → PTree → Bool × σ) :
    PTreeList → σ → Except PanicMsg (PTreeList × Int × σ)
  | .nil, st => .ok (.nil, 0, st)
  | .cons k rest, st =>
    match filter_page_tree_helper f k st with
    | .error e => .error e
    | .ok (act, k', st') =>
      match act with
      | .KeepKid =>
        match filterKids f rest st' with
        | .error e => .error e
        | .ok (rest', sub, st'') => .ok (.cons k' rest', sub, st'')
      | .RemoveKid =>
        match filterKids f rest st' with
        | .error e => .error e
        | .ok (rest', sub, st'') => .ok (rest', 1 + sub, st'')
      | .Subtree n =>
        match filterKids f rest st' with
        | .error e => .error e
        | .ok (rest', sub, st'') => .ok (.cons k' rest', n + sub, st'')

end

/-- `filter_page_tree` (`main.rs:75-81`): runs the helper on the root and
discards the returned `FilterAction` (so a `RemoveKid` verdict on the root
itself detaches nothing).  Returns the filtered root and final state. -/
def filter_page_tree {σ : Type} (f : σ → PTree → Bool × σ) (root : PTree) (st : σ) :
    Except PanicMsg (PTree × σ) :=
  match filter_page_tree_helper f root st with
  | .error e => .error e
  | .ok (_, root', st') => .ok (root', st')

/-- Digit-string accumulation, the value computed by Rust's `str::parse::<i32>`
on an all-digit slice. -/
def digitsToNat (l : List Char) : Nat :=
  l.foldl (fun a c => a * 10 + (c.toNat - 48)) 0

/-- Unsigned decimal parsing: at least one character, all decimal digits. -/
def parseDigits (l : List Char) : Option Nat :=
  if l.isEmpty then none
  else if l.all Char.isDigit then some (digitsToNat l) else none

/-- Rust `str::parse::<i32>`: optional sign, one or more decimal digits, and
the `i32` range check (overflow is a parse error). -/
def parseI32 (l : List Char) : Option Int :=
  match l with
  | [] => none
  | c :: rest =>
    if c = '+' then
      (parseDigits rest).bind fun v =>
        if v ≤ 2147483647 then some (Int.ofNat v) else none
    else if c = '-' then
      (parseDigits rest).bind fun v =>
        if v ≤ 2147483648 then some (-(Int.ofNat v)) else none
    else
      (parseDigits (c :: rest)).bind fun v =>
        if v ≤ 2147483647 then some (Int.ofNat v) else none

/-- Rust `str::find(&str)`: index of the first occurrence of `pat` in `s`
(`some 0` for an empty pattern). -/
def findSubstr (s pat : List Char) : Option Nat :=
  if pat.isPrefixOf s then some 0
  else
    match s with
    | [] => none
    | _ :: rest => (findSubstr rest pat).map (· + 1)

/-- Rust `str::find(char)`: index of the first occurrence of `c` in `s`. -/
def findCharIdx (c : Char) : List Char → Option Nat
  | [] => none
  | x :: xs => if x = c then some 0 else (findCharIdx c xs).map (· + 1)

/-- One marker attempt of `read_exercise_number` (`main.rs:112-125`): find the
first occurrence of `pat`, then the next `'('` after it, then the next `')'`
after that, and parse the characters between the parentheses as an `i32`.
Every failure (including an unparsable token) falls through to `none`, which
in the source means trying the next marker. -/
def scanMarker (s : List Char) (pat : List Char) : Option Int :=
  match findSubstr s pat with
  | none => none
  | some i =>
    let after := s.drop (i + pat.length)
    match findCharIdx '(' after with
    | none => none
    | some l =>
      let afterL := after.drop (l + 1)
      match findCharIdx ')' afterL with
      | none => none
      | some r => parseI32 (afterL.take r)

/-- The two recognized marker literal forms (`main.rs:111`), in source order:
the kerned/glyph-split form and the plain form. -/
def markers : List (List Char) :=
  ["(EXER)31(CICE)".data, "(Exercice)".data]

/-- `ExerciseExtractor::read_exercise_number` (`main.rs:98-127`): absent
`/Contents`, an unreadable stream, undecodable bytes, or no marker with a
parsable parenthesized token all yield `none`; otherwise the first marker
form that succeeds wins. -/
def read_exercise_number (page : PTree) : Option Int :=
  match page.contentsField with
  | none => none
  | some .unreadable => none
  | some (.text s) => markers.findSome? (scanMarker s)

/-- The mutable state captured by the closure in `ExerciseExtractor::extract`
(`main.rs:148-149`): the currently active exercise number (sentinel `-1`) and
the requested numbers not yet observed. -/
structure MatchState where
  current_exercise_number : Int
  not_seen : List Int
  deriving DecidableEq

/-- Rust `Vec::swap_remove(pos)`: overwrite position `pos` with the last
element, then pop the last element. -/
def swapRemove (l : List Int) (pos : Nat) : List Int :=
  match l.getLast? with
  | none => l
  | some last => (l.set pos last).dropLast

/-- The `position`/`swap_remove` pair of `main.rs:153-157`: remove the first
occurrence of `n`, if any, by swap-removal. -/
def removeFirstSwap (n : Int) (l : List Int) : List Int :=
  match l.findIdx? (· == n) with
  | none => l
  | some pos => swapRemove l pos

/-- The predicate closure passed to `filter_page_tree` in
`ExerciseExtractor::extract` (`main.rs:150-160`): re-derive the active label
via the scanner, tick the label off `not_seen`, then test membership of the
active label in the requested list. -/
def extractPred (exercise_numbers : List Int) (st : MatchState) (page : PTree) :
    Bool × MatchState :=
  let st' :=
    match read_exercise_number page with
    | some n =>
      { current_exercise_number := n, not_seen := removeFirstSwap n st.not_seen }
    | none => st
  (exercise_numbers.contains st'.current_exercise_number, st')

/-- Outcome of one `ExerciseExtractor::extract` call.  `success` carries the
filtered tree, standing in for the serialized bytes written by the single
`doc.write_to(w)` call at the very end of `extract` (`main.rs:168`): on every
other outcome nothing has been written to the caller's sink.  `mupdfError`
and `invalidDoc` are the typed errors of the decode/catalog-resolution stage;
`panicked` is a panic escaping the filter. -/
inductive ExtractOutcome where
  | success (doc : PTree)
  | mupdfError
  | invalidDoc
  | missingExercise
  | panicked (e : PanicMsg)

/-- A source document, abstracting `PdfDocument::from_bytes` and the
catalog → `/Pages` resolution chain of `main.rs:134-147`: `decodeOk = false`
collapses the mupdf-level failures, `pagesRoot = none` collapses the
`InvalidDoc` resolution failures, and otherwise the resolved page-tree root
is available. -/
structure DocSource where
  decodeOk : Bool
  pagesRoot : Option PTree

/-- `ExerciseExtractor::extract` (`main.rs:129-170`).  The catalog's
`/Outlines` removal (`main.rs:165-167`) touches only the catalog, not the
page tree, and is not modelled. -/
def extract (src : DocSource) (exercise_numbers : List Int) : ExtractOutcome :=
  if ¬ src.decodeOk then .mupdfError
  else
    match src.pagesRoot with
    | none => .invalidDoc
    | some tree =>
      match filter_page_tree (extractPred exercise_numbers) tree
          ⟨-1, exercise_numbers⟩ with
      | .error e => .panicked e
      | .ok (tree', st') =>
        if st'.not_seen.isEmpty then .success tree' else .missingExercise

/-- `has_duplicate_elements` (`main.rs:173-180`), specialized to the `i32`
lists it is applied to: true iff some element occurs twice. -/
def has_duplicate_elements : List Int → Bool
  | [] => false
  | x :: xs => xs.contains x || has_duplicate_elements xs

/-- Rust `str::split(',')`: splits into (possibly empty) comma-free parts;
the empty input yields one empty part. -/
def splitOnChar (c : Char) : List Char → List (List Char)
  | [] => [[]]
  | x :: xs =>
    if x = c then [] :: splitOnChar c xs
    else
      match splitOnChar c xs with
      | [] => [[x]]
      | h :: t => (x :: h) :: t

/-- `path.strip_suffix(".pdf").unwrap_or(path)` (`main.rs:229`). -/
def stripPdfSuffix (path : List Char) : List Char :=
  if List.isSuffixOf ".pdf".data path then path.take (path.length - 4) else path

/-- The request-validation stage of the handler closure (`main.rs:225-240`):
require a leading `'/'`, strip an optional trailing `".pdf"`, split the rest
on commas, parse every part as an `i32`, and reject duplicate values.
`none` means the handler answers not-found without ever touching the
extractor. -/
def parseRequest (path : List Char) : Option (List Int) :=
  if path.head? ≠ some '/' then none
  else
    let stripped := stripPdfSuffix path
    let parts := splitOnChar ',' (stripped.drop 1)
    match parts.mapM parseI32 with
    | none => none
    | some nums => if has_duplicate_elements nums then none else some nums

/-- Externally visible outcome of one request.  `panicked` records that the
handler's future panicked, so no HTTP response was produced for this request
(the source `panic!` is not converted into a response by `main.rs:241-251`). -/
inductive HttpOutcome where
  | notFound
  | internalServerError
  | okPdf (body : PTree)
  | panicked

/-- The outcome mapping of `main.rs:247-255`: `MissingExercise` → not-found,
the typed errors → internal-error, success → the PDF body.  A panic is not an
`Err` and escapes the `match`. -/
def respond (r : ExtractOutcome) : HttpOutcome :=
  match r with
  | .missingExercise => .notFound
  | .mupdfError => .internalServerError
  | .invalidDoc => .internalServerError
  | .panicked _ => .panicked
  | .success d => .okPdf d

/-- The per-request handler body of `main` (`main.rs:225-255`) for one request
on an uncontended extractor (the exclusive lock acquisition of `main.rs:243`
succeeds in this single-request model). -/
def handle (src : DocSource) (path : List Char) : HttpOutcome :=
  match parseRequest path with
  | none => .notFound
  | some nums => respond (extract src nums)

mutual

/-- Number of leaf (`/Type /Page`) descendants reachable from a node through
`/Kids` arrays; a `Page` node itself counts as one leaf. -/
def leafCount : PTree → Nat
  | .mk ty _ kids _ =>
    if ty = some "Page" then 1
    else
      match kids with
      | .absent => 0
      | .present l => leafCountList l

def leafCountList : PTreeList → Nat
  | .nil => 0
  | .cons k rest => leafCount k + leafCountList rest

end

mutual

/-- The Count invariant of the spec: every `/Type /Pages` node in the tree
carries `/Count` equal to the number of leaf descendants reachable under it. -/
def countsCorrect : PTree → Bool
  | .mk ty _ kids cnt =>
    (if ty = some "Pages" then
      cnt == some (Int.ofNat (match kids with
        | .absent => 0
        | .present l => leafCountList l))
    else true)
    && (match kids with
        | .absent => true
        | .present l => countsCorrectList l)

def countsCorrectList : PTreeList → Bool
  | .nil => true
  | .cons k rest => countsCorrect k && countsCorrectList rest

end

mutual

/-- The leaf pages the filter's predicate visits, in document order: a `Page`
node is visited itself; a `Pages` node visits its kids left to right; untyped
nodes and nodes without kids contribute nothing. -/
def leafSeq : PTree → List PTree
  | .mk ty c kids cnt =>
    if ty = some "Page" then [.mk ty c kids cnt]
    else if ty = some "Pages" then
      match kids with
      | .absent => []
      | .present l => leafSeqList l
    else []

def leafSeqList : PTreeList → List PTree
  | .nil => []
  | .cons k rest => leafSeq k ++ leafSeqList rest

end

mutual

/-- True iff a node with a `/Type` name other than `Page`/`Pages` is reachable
through the region the filter visits (the node itself, or through the kids of
`Pages` nodes). -/
def hasBadType : PTree → Bool
  | .mk ty _ kids _ =>
    match ty with
    | none => false
    | some t =>
      if t = "Page" then false
      else if t = "Pages" then
        match kids with
        | .absent => false
        | .present l => hasBadTypeList l
      else true

def hasBadTypeList : PTreeList → Bool
  | .nil => false
  | .cons k rest => hasBadType k || hasBadTypeList rest

end

/-- Sequential run of a stateful predicate over a list of pages: the state
after all of them. -/
def statesFold {σ : Type} (f : σ → PTree → Bool × σ) (st : σ) (l : List PTree) : σ :=
  l.foldl (fun s p => (f s p).2) st

/-- Sequential run of a stateful predicate over a list of pages: the sublist
of pages it accepts. -/
def keptFold {σ : Type} (f : σ → PTree → Bool × σ) : σ → List PTree → List PTree
  | _, [] => []
  | st, p :: rest =>
    let (b, st') := f st p
    if b then p :: keptFold f st' rest else keptFold f st' rest

/-- Modelled from the spec's sticky-assignment rule (spec §3 invariant 2,
§8 "Sticky assignment"), for comparison with the code's predicate: walking
the pages in document order, a page's effective label is its own parsed label
if it has one, otherwise the label of the nearest preceding labeled page
(initially the sentinel `cur`); a page is kept iff its effective label is in
the requested list. -/
def stickyKeep (nums : List Int) : Int → List PTree → List PTree
  | _, [] => []
  | cur, p :: rest =>
    let cur' :=
      match read_exercise_number p with
      | some n => n
      | none => cur
    if nums.contains cur' then p :: stickyKeep nums cur' rest
    else stickyKeep nums cur' rest

/-- The child loop of `main.rs:47-62` rendered literally: an index `i` into
the child array, `array_delete(i)` plus `continue` (the index does not
advance) on `RemoveKid`, the index advancing on `KeepKid` and on
`Subtree` (whose count is accumulated), and the running deleted-count
returned when `i` reaches the end. -/
def kidsLoopIdx {σ : Type} (g : PTree → σ → Except PanicMsg (FilterAction × PTree × σ))
    (kids : List PTree) (i : Nat) (acc : Int) (st : σ) :
    Except PanicMsg (List PTree × Int × σ) :=
  if h : i < kids.length then
    match g kids[i] st with
    | .error e => .error e
    | .ok (act, k', st') =>
      match act with
      | .KeepKid => kidsLoopIdx g (kids.set i k') (i + 1) acc st'
      | .RemoveKid => kidsLoopIdx g (kids.eraseIdx i) i (acc + 1) st'
      | .Subtree n => kidsLoopIdx g (kids.set i k') (i + 1) (acc + n) st'
  else .ok (kids, acc, st)
  termination_by kids.length - i
  decreasing_by
  · simp only [List.length_set]
    omega
  · simp only [List.length_eraseIdx_of_lt h]
    omega
  · simp only [List.length_set]
    omega


/-! ### Lemmas about the marker scanner -/

theorem isPrefixOf_append_right (l r : List Char) : l.isPrefixOf (l ++ r) = true := by
  induction l with
  | nil => simp
  | cons x xs ih => simp [List.isPrefixOf_cons₂, ih]

theorem mem_of_isPrefixOf {p s : List Char} (h : p.isPrefixOf s = true) :
    ∀ ch ∈ p, ch ∈ s := by
  induction p generalizing s with
  | nil => intro ch hch; cases hch
  | cons x xs ih =>
    cases s with
    | nil => simp [List.isPrefixOf] at h
    | cons y ys =>
      simp only [List.isPrefixOf, Bool.and_eq_true, beq_iff_eq] at h
      obtain ⟨rfl, h2⟩ := h
      intro ch hch
      rcases List.mem_cons.mp hch with rfl | hm
      · exact List.mem_cons_self _ _
      · exact List.mem_cons_of_mem _ (ih h2 ch hm)

theorem findSubstr_append_self (pat r : List Char) : findSubstr (pat ++ r) pat = some 0 := by
  unfold findSubstr
  rw [if_pos (isPrefixOf_append_right pat r)]

theorem findSubstr_some_sub {s pat : List Char} {i : Nat} (h : findSubstr s pat = some i) :
    ∀ ch ∈ pat, ch ∈ s := by
  induction s generalizing i with
  | nil =>
    by_cases hp : pat.isPrefixOf ([] : List Char) = true
    · exact mem_of_isPrefixOf hp
    · unfold findSubstr at h
      rw [if_neg hp] at h
      replace h : (none : Option Nat) = some i := h
      exact absurd h (by simp)
  | cons y ys ih =>
    by_cases hp : pat.isPrefixOf (y :: ys) = true
    · exact mem_of_isPrefixOf hp
    · unfold findSubstr at h
      rw [if_neg hp] at h
      replace h : Option.map (fun x => x + 1) (findSubstr ys pat) = some i := h
      cases hm : findSubstr ys pat with
      | none => rw [hm] at h; exact absurd h (by simp)
      | some j =>
        intro ch hch
        exact List.mem_cons_of_mem _ (ih hm ch hch)

theorem findSubstr_none_of_missing_char (s pat : List Char) (ch : Char)
    (hp : ch ∈ pat) (hs : ch ∉ s) : findSubstr s pat = none := by
  cases h : findSubstr s pat with
  | none => rfl
  | some i => exact absurd (findSubstr_some_sub h ch hp) hs

theorem findCharIdx_cons_self (c : Char) (rest : List Char) :
    findCharIdx c (c :: rest) = some 0 := by
  simp [findCharIdx]

theorem findCharIdx_append_cons (c : Char) (l r : List Char) (hc : c ∉ l) :
    findCharIdx c (l ++ c :: r) = some l.length := by
  induction l with
  | nil => simp [findCharIdx]
  | cons x xs ih =>
    have hx : ¬ (x = c) := fun he => hc (he ▸ List.mem_cons_self x xs)
    have hc' : c ∉ xs := fun hm => hc (List.mem_cons_of_mem _ hm)
    simp [findCharIdx, hx, ih hc']

theorem parseDigits_some_digits {l : List Char} {v : Nat} (h : parseDigits l = some v) :
    ∀ ch ∈ l, ch.isDigit = true := by
  unfold parseDigits at h
  split at h
  · exact absurd h (by simp)
  · split at h
    · rename_i hall
      intro ch hch
      exact List.all_eq_true.mp hall ch hch
    · exact absurd h (by simp)

theorem parseI32_chars {l : List Char} {n : Int} (h : parseI32 l = some n) :
    ∀ ch ∈ l, ch = '+' ∨ ch = '-' ∨ ch.isDigit = true := by
  cases l with
  | nil => simp [parseI32] at h
  | cons c rest =>
    replace h :
        (if c = '+' then
          (parseDigits rest).bind fun v =>
            if v ≤ 2147483647 then some (Int.ofNat v) else none
        else if c = '-' then
          (parseDigits rest).bind fun v =>
            if v ≤ 2147483648 then some (-(Int.ofNat v)) else none
        else
          (parseDigits (c :: rest)).bind fun v =>
            if v ≤ 2147483647 then some (Int.ofNat v) else none) = some n := h
    by_cases h1 : c = '+'
    · rw [if_pos h1] at h
      cases hd : parseDigits rest with
      | none => rw [hd] at h; simp at h
      | some v =>
        intro ch hch
        rcases List.mem_cons.mp hch with rfl | hm
        · exact Or.inl h1
        · exact Or.inr (Or.inr (parseDigits_some_digits hd ch hm))
    · rw [if_neg h1] at h
      by_cases h2 : c = '-'
      · rw [if_pos h2] at h
        cases hd : parseDigits rest with
        | none => rw [hd] at h; simp at h
        | some v =>
          intro ch hch
          rcases List.mem_cons.mp hch with rfl | hm
          · exact Or.inr (Or.inl h2)
          · exact Or.inr (Or.inr (parseDigits_some_digits hd ch hm))
      · rw [if_neg h2] at h
        cases hd : parseDigits (c :: rest) with
        | none => rw [hd] at h; simp at h
        | some v =>
          intro ch hch
          exact Or.inr (Or.inr (parseDigits_some_digits hd ch hch))

theorem scanMarker_at_front (pat tok : List Char) (h1 : (')' : Char) ∉ tok) :
    scanMarker (pat ++ ('(' :: (tok ++ [')']))) pat = parseI32 tok := by
  unfold scanMarker
  rw [findSubstr_append_self]
  simp only [Nat.zero_add, List.drop_left, findCharIdx_cons_self, List.drop_succ_cons,
    List.drop_zero, findCharIdx_append_cons _ _ _ h1, List.take_left]

/-! ### Claims C6, C7, C9, C10: direct consequences of the scanner and the
leaf/untyped branches of the filter -/

/-- C6: a node with no recognizable type discriminator makes the filter return
`SubtreeResult(0)` without visiting, deleting or modifying the node or any of
its children (the node, its kids and the predicate state come back untouched),
and inside a parent's child sequence such a node is never detached and
contributes zero to the parent's running deleted-count. -/
theorem c6_untyped_passthrough {σ : Type} (c : Option LeafContent) (kids : Kids)
    (cnt : Option Int) (f : σ → PTree → Bool × σ) (st : σ) :
    filter_page_tree_helper f (.mk none c kids cnt) st
      = .ok (.Subtree 0, .mk none c kids cnt, st)
    ∧ ∀ rest : PTreeList,
        filterKids f (.cons (.mk none c kids cnt) rest) st =
          match filterKids f rest st with
          | .error e => .error e
          | .ok (rest', sub, st') => .ok (.cons (.mk none c kids cnt) rest', sub, st') := by
  have h1 : filter_page_tree_helper f (.mk none c kids cnt) st
      = .ok (.Subtree 0, .mk none c kids cnt, st) := by
    simp [filter_page_tree_helper]
  refine ⟨h1, fun rest => ?_⟩
  rw [filterKids, h1]
  cases hrest : filterKids f rest st with
  | error e => simp [hrest]
  | ok r => obtain ⟨rest', sub, st'⟩ := r; simp [hrest]

/-- C7: the marker scanner `read_exercise_number` is a total pure function
from one leaf to an optional label: absent content, unreadable/undecodable
content, content without any marker occurrence, and content where no marker
attempt produces a parsable token all yield `none` (never an error), and the
filter's leaf branch returns the leaf itself unchanged (no mutation) with a
plain keep/remove verdict for every predicate. -/
theorem c7_scanner_total {σ : Type} (ty : Option String) (c : Option LeafContent)
    (kids : Kids) (cnt : Option Int) (s : List Char) (f : σ → PTree → Bool × σ) (st : σ) :
    read_exercise_number (.mk ty none kids cnt) = none
    ∧ read_exercise_number (.mk ty (some .unreadable) kids cnt) = none
    ∧ ((∀ m ∈ markers, findSubstr s m = none) →
        read_exercise_number (.mk ty (some (.text s)) kids cnt) = none)
    ∧ ((∀ m ∈ markers, scanMarker s m = none) →
        read_exercise_number (.mk ty (some (.text s)) kids cnt) = none)
    ∧ filter_page_tree_helper f (.mk (some "Page") c kids cnt) st
        = .ok (if (f st (.mk (some "Page") c kids cnt)).1 then .KeepKid else .RemoveKid,
            .mk (some "Page") c kids cnt, (f st (.mk (some "Page") c kids cnt)).2) := by
  have hscan : ∀ m, findSubstr s m = none → scanMarker s m = none := by
    intro m hm
    unfold scanMarker
    rw [hm]
  refine ⟨rfl, rfl, ?_, ?_, ?_⟩
  · intro h
    simp only [read_exercise_number, PTree.contentsField, markers, List.findSome?]
    rw [hscan _ (h _ (by simp [markers])), hscan _ (h _ (by simp [markers]))]
  · intro h
    simp only [read_exercise_number, PTree.contentsField, markers, List.findSome?]
    rw [h _ (by simp [markers]), h _ (by simp [markers])]
  · cases hf : f st (.mk (some "Page") c kids cnt) with
    | mk b st2 =>
      simp only [filter_page_tree_helper]
      simp [hf]

/-- C7 witness: the scanner at concrete inputs, through `c7_scanner_total`
with its hypotheses discharged. -/
theorem c7_witness :
    read_exercise_number (.mk none (some (.text "hello".data)) .absent none) = none
    ∧ read_exercise_number (.mk none (some (.text "(Exercice)(x)".data)) .absent none) = none := by
  constructor
  · exact (c7_scanner_total (σ := Unit) none none .absent none "hello".data
      (fun st _ => (true, st)) ()).2.2.1 (by decide)
  · exact (c7_scanner_total (σ := Unit) none none .absent none "(Exercice)(x)".data
      (fun st _ => (true, st)) ()).2.2.2.1 (by decide)

/-- C9: for every token that parses as an `i32` value `n` (in particular the
decimal rendering of any label), the kerned marker form and the plain marker
form followed by the parenthesized token are both recognized and both yield
the same parsed integer `n`. -/
theorem c9_marker_equivalence (n : Int) (tok : List Char) (h : parseI32 tok = some n) :
    read_exercise_number (.mk (some "Page")
        (some (.text ("(EXER)31(CICE)".data ++ ('(' :: (tok ++ [')']))))) .absent none) = some n
    ∧ read_exercise_number (.mk (some "Page")
        (some (.text ("(Exercice)".data ++ ('(' :: (tok ++ [')']))))) .absent none) = some n := by
  have hch := parseI32_chars h
  have hrp : (')' : Char) ∉ tok := by
    intro hm
    rcases hch ')' hm with h' | h' | h' <;> revert h' <;> decide
  have hs1 : scanMarker ("(EXER)31(CICE)".data ++ ('(' :: (tok ++ [')'])))
      "(EXER)31(CICE)".data = some n := by
    rw [scanMarker_at_front _ _ hrp, h]
  have hX : ('X' : Char) ∉ ("(Exercice)".data ++ ('(' :: (tok ++ [')']))) := by
    intro hm
    rcases List.mem_append.mp hm with hm | hm
    · revert hm; decide
    · rcases List.mem_cons.mp hm with h' | hm
      · revert h'; decide
      · rcases List.mem_append.mp hm with hm | hm
        · rcases hch 'X' hm with h' | h' | h' <;> revert h' <;> decide
        · revert hm; decide
  have hs2m1 : scanMarker ("(Exercice)".data ++ ('(' :: (tok ++ [')'])))
      "(EXER)31(CICE)".data = none := by
    unfold scanMarker
    rw [findSubstr_none_of_missing_char _ _ 'X' (by decide) hX]
  have hs2m2 : scanMarker ("(Exercice)".data ++ ('(' :: (tok ++ [')'])))
      "(Exercice)".data = some n := by
    rw [scanMarker_at_front _ _ hrp, h]
  constructor
  · simp only [read_exercise_number, PTree.contentsField, markers, List.findSome?]
    rw [hs1]
  · simp only [read_exercise_number, PTree.contentsField, markers, List.findSome?]
    rw [hs2m1, hs2m2]

/-- C9 witness: both marker forms followed by `(42)` parse to `42`. -/
theorem c9_witness :
    read_exercise_number (.mk (some "Page")
        (some (.text ("(EXER)31(CICE)".data ++ ('(' :: ("42".data ++ [')']))))) .absent none)
      = some 42
    ∧ read_exercise_number (.mk (some "Page")
        (some (.text ("(Exercice)".data ++ ('(' :: ("42".data ++ [')']))))) .absent none)
      = some 42 :=
  c9_marker_equivalence 42 "42".data (by decide)

/-- C10: when the root passed to `filter_page_tree` is itself a `Page` leaf
that the predicate rejects, the `RemoveKid` verdict is discarded at top
level: the root page is returned unchanged in the output. -/
theorem c10_root_leaf_kept {σ : Type} (c : Option LeafContent) (kids : Kids)
    (cnt : Option Int) (f : σ → PTree → Bool × σ) (st st2 : σ)
    (hf : f st (.mk (some "Page") c kids cnt) = (false, st2)) :
    filter_page_tree f (.mk (some "Page") c kids cnt) st
      = .ok (.mk (some "Page") c kids cnt, st2) := by
  unfold filter_page_tree
  simp only [filter_page_tree_helper]
  simp [hf]

/-- C10 witness: a contentless root page with requested set `[5]` does not
match, yet survives filtering. -/
theorem c10_witness :
    filter_page_tree (extractPred [5]) (.mk (some "Page") none .absent none) ⟨-1, [5]⟩
      = .ok (.mk (some "Page") none .absent none, ⟨-1, [5]⟩) :=
  c10_root_leaf_kept none .absent none (extractPred [5]) ⟨-1, [5]⟩ ⟨-1, [5]⟩ rfl

/-! ### Claim C8: gateway validation -/

/-- C8: for every request path, after stripping the optional trailing `.pdf`
token and splitting on commas, if any part fails to parse as a signed `i32`
or the parsed list contains duplicate values, the handler answers not-found —
for every source document alike, so the extractor is never consulted and no
document work begins. -/
theorem c8_gateway_validation (path : List Char)
    (h : (splitOnChar ',' ((stripPdfSuffix path).drop 1)).mapM parseI32 = none
        ∨ ∃ nums, (splitOnChar ',' ((stripPdfSuffix path).drop 1)).mapM parseI32 = some nums
            ∧ has_duplicate_elements nums = true) :
    ∀ src : DocSource, handle src path = .notFound := by
  intro src
  unfold handle parseRequest
  by_cases hh : path.head? = some '/'
  · rw [if_neg (by simp [hh])]
    rcases h with h | ⟨nums, h1, h2⟩
    · simp only [h]
    · simp only [h1, h2, if_true]
  · rw [if_pos hh]

/-- C8 witness: the duplicate request `/105,105` and the malformed request
`/abc` are both answered not-found without consulting any document. -/
theorem c8_witness :
    handle ⟨true, none⟩ "/105,105".data = .notFound
    ∧ handle ⟨true, none⟩ "/abc".data = .notFound :=
  ⟨c8_gateway_validation "/105,105".data (Or.inr ⟨[105, 105], by decide, by decide⟩) ⟨true, none⟩,
   c8_gateway_validation "/abc".data (Or.inl (by decide)) ⟨true, none⟩⟩

/-! ### Branch equations for the filter -/

theorem helper_eq_untyped {σ : Type} (f : σ → PTree → Bool × σ) (c : Option LeafContent)
    (kids : Kids) (cnt : Option Int) (st : σ) :
    filter_page_tree_helper f (.mk none c kids cnt) st
      = .ok (.Subtree 0, .mk none c kids cnt, st) := by
  simp [filter_page_tree_helper]

theorem helper_eq_page {σ : Type} (f : σ → PTree → Bool × σ) (c : Option LeafContent)
    (kids : Kids) (cnt : Option Int) (st : σ) :
    filter_page_tree_helper f (.mk (some "Page") c kids cnt) st
      = .ok (if (f st (.mk (some "Page") c kids cnt)).1 then .KeepKid else .RemoveKid,
          .mk (some "Page") c kids cnt, (f st (.mk (some "Page") c kids cnt)).2) := by
  cases hf : f st (.mk (some "Page") c kids cnt) with
  | mk b st2 =>
    simp only [filter_page_tree_helper]
    simp [hf]

theorem helper_eq_pages_absent {σ : Type} (f : σ → PTree → Bool × σ) (c : Option LeafContent)
    (cnt : Option Int) (st : σ) :
    filter_page_tree_helper f (.mk (some "Pages") c .absent cnt) st
      = .ok (.Subtree 0, .mk (some "Pages") c .absent cnt, st) := by
  simp [filter_page_tree_helper]

theorem helper_eq_pages {σ : Type} (f : σ → PTree → Bool × σ) (c : Option LeafContent)
    (ks : PTreeList) (cnt : Option Int) (st : σ) :
    filter_page_tree_helper f (.mk (some "Pages") c (.present ks) cnt) st =
      match filterKids f ks st with
      | .error e => .error e
      | .ok (ks', sub, st') =>
        if sub > 0 then
          match cnt with
          | none => .error .missingCount
          | some cv =>
            .ok (.Subtree sub, .mk (some "Pages") c (.present ks') (some (cv - sub)), st')
        else .ok (.Subtree sub, .mk (some "Pages") c (.present ks') cnt, st') := by
  simp only [filter_page_tree_helper]
  rw [if_neg (by decide : ¬ ("Pages" : String) = "Page"), if_true]

theorem helper_eq_other {σ : Type} (f : σ → PTree → Bool × σ) (tn : String)
    (c : Option LeafContent) (kids : Kids) (cnt : Option Int) (st : σ)
    (h1 : ¬ tn = "Page") (h2 : ¬ tn = "Pages") :
    filter_page_tree_helper f (.mk (some tn) c kids cnt) st = .error .invalidType := by
  cases kids with
  | absent => rw [filter_page_tree_helper.eq_2, if_neg h1, if_neg h2]
  | present ks => rw [filter_page_tree_helper.eq_3, if_neg h1, if_neg h2]

theorem filterKids_cons_err {σ : Type} (f : σ → PTree → Bool × σ) (k : PTree)
    (rest : PTreeList) (st : σ) (e : PanicMsg)
    (hk : filter_page_tree_helper f k st = .error e) :
    filterKids f (.cons k rest) st = .error e := by
  rw [filterKids, hk]

theorem filterKids_cons_keep {σ : Type} (f : σ → PTree → Bool × σ) (k : PTree)
    (rest : PTreeList) (st st2 : σ) (k' : PTree)
    (hk : filter_page_tree_helper f k st = .ok (.KeepKid, k', st2)) :
    filterKids f (.cons k rest) st =
      match filterKids f rest st2 with
      | .error e => .error e
      | .ok (rest', sub, st'') => .ok (.cons k' rest', sub, st'') := by
  rw [filterKids, hk]

theorem filterKids_cons_remove {σ : Type} (f : σ → PTree → Bool × σ) (k : PTree)
    (rest : PTreeList) (st st2 : σ) (k' : PTree)
    (hk : filter_page_tree_helper f k st = .ok (.RemoveKid, k', st2)) :
    filterKids f (.cons k rest) st =
      match filterKids f rest st2 with
      | .error e => .error e
      | .ok (rest', sub, st'') => .ok (rest', 1 + sub, st'') := by
  rw [filterKids, hk]

theorem filterKids_cons_subtree {σ : Type} (f : σ → PTree → Bool × σ) (k : PTree)
    (rest : PTreeList) (st st2 : σ) (k' : PTree) (n : Int)
    (hk : filter_page_tree_helper f k st = .ok (.Subtree n, k', st2)) :
    filterKids f (.cons k rest) st =
      match filterKids f rest st2 with
      | .error e => .error e
      | .ok (rest', sub, st'') => .ok (.cons k' rest', n + sub, st'') := by
  rw [filterKids, hk]

/-! ### The Count invariant -/

mutual

theorem helper_counts {σ : Type} (f : σ → PTree → Bool × σ) (t : PTree) (st : σ)
    {act : FilterAction} {t' : PTree} {st' : σ}
    (hok : filter_page_tree_helper f t st = .ok (act, t', st'))
    (hc : countsCorrect t = true) :
    countsCorrect t' = true ∧
    (act = .KeepKid → t' = t) ∧
    (act = .RemoveKid → t' = t ∧ leafCount t = 1) ∧
    (∀ n, act = .Subtree n → 0 ≤ n ∧ (leafCount t' : Int) + n = (leafCount t : Int)) := by
  cases t with
  | mk ty c kids cnt =>
    cases ty with
    | none =>
      rw [helper_eq_untyped] at hok
      simp only [Except.ok.injEq, Prod.mk.injEq] at hok
      obtain ⟨h1, h2, h3⟩ := hok
      subst h1; subst h2
      refine ⟨hc, ?_, ?_, ?_⟩
      · intro h; simp at h
      · intro h; simp at h
      · intro n hn
        injection hn with hn
        subst hn
        simp
    | some tn =>
      by_cases hP : tn = "Page"
      · subst hP
        rw [helper_eq_page] at hok
        simp only [Except.ok.injEq, Prod.mk.injEq] at hok
        obtain ⟨h1, h2, h3⟩ := hok
        subst h2
        refine ⟨hc, ?_, ?_, ?_⟩
        · intro h; exact rfl
        · intro h
          refine ⟨rfl, ?_⟩
          simp [leafCount]
        · intro n hn
          rw [hn] at h1
          by_cases hb : (f st (.mk (some "Page") c kids cnt)).1 = true
          · rw [if_pos hb] at h1; simp at h1
          · rw [if_neg hb] at h1; simp at h1
      · by_cases hPs : tn = "Pages"
        · subst hPs
          cases kids with
          | absent =>
            rw [helper_eq_pages_absent] at hok
            simp only [Except.ok.injEq, Prod.mk.injEq] at hok
            obtain ⟨h1, h2, h3⟩ := hok
            subst h1; subst h2
            refine ⟨hc, ?_, ?_, ?_⟩
            · intro h; simp at h
            · intro h; simp at h
            · intro n hn
              injection hn with hn
              subst hn
              simp
          | present ks =>
            rw [helper_eq_pages] at hok
            simp [countsCorrect] at hc
            obtain ⟨hcnt, hcl⟩ := hc
            cases hks : filterKids f ks st with
            | error e => rw [hks] at hok; simp at hok
            | ok r =>
              obtain ⟨ks', sub, st2⟩ := r
              rw [hks] at hok
              obtain ⟨hcl', hs0, hsum⟩ := kids_counts f ks st hks hcl
              by_cases hpos : sub > 0
              · rw [hcnt] at hok
                simp only [hpos, if_true] at hok
                simp only [Except.ok.injEq, Prod.mk.injEq] at hok
                obtain ⟨h1, h2, h3⟩ := hok
                subst h1; subst h2
                refine ⟨?_, ?_, ?_, ?_⟩
                · simp [countsCorrect, hcl']
                  omega
                · intro h; simp at h
                · intro h; simp at h
                · intro n hn
                  injection hn with hn
                  subst hn
                  refine ⟨le_of_lt hpos, ?_⟩
                  simp [leafCount]
                  omega
              · simp only [hpos, if_false] at hok
                simp only [Except.ok.injEq, Prod.mk.injEq] at hok
                obtain ⟨h1, h2, h3⟩ := hok
                subst h1; subst h2
                refine ⟨?_, ?_, ?_, ?_⟩
                · simp [countsCorrect, hcl', hcnt]
                  omega
                · intro h; simp at h
                · intro h; simp at h
                · intro n hn
                  injection hn with hn
                  subst hn
                  refine ⟨hs0, ?_⟩
                  simp [leafCount]
                  omega
        · rw [helper_eq_other f tn c kids cnt st hP hPs] at hok
          simp at hok

theorem kids_counts {σ : Type} (f : σ → PTree → Bool × σ) (l : PTreeList) (st : σ)
    {l' : PTreeList} {sub : Int} {st' : σ}
    (hok : filterKids f l st = .ok (l', sub, st'))
    (hc : countsCorrectList l = true) :
    countsCorrectList l' = true ∧ 0 ≤ sub ∧
      (leafCountList l' : Int) + sub = (leafCountList l : Int) := by
  cases l with
  | nil =>
    rw [filterKids] at hok
    simp only [Except.ok.injEq, Prod.mk.injEq] at hok
    obtain ⟨h1, h2, h3⟩ := hok
    subst h1; subst h2
    exact ⟨rfl, le_refl 0, by simp⟩
  | cons k rest =>
    simp only [countsCorrectList, Bool.and_eq_true] at hc
    obtain ⟨hck, hcr⟩ := hc
    cases hk : filter_page_tree_helper f k st with
    | error e =>
      rw [filterKids_cons_err f k rest st e hk] at hok
      simp at hok
    | ok r =>
      obtain ⟨act, k', st2⟩ := r
      have hkc := helper_counts f k st hk hck
      cases act with
      | KeepKid =>
        rw [filterKids_cons_keep f k rest st st2 k' hk] at hok
        cases hr : filterKids f rest st2 with
        | error e => rw [hr] at hok; simp at hok
        | ok r2 =>
          obtain ⟨rest', sub2, st3⟩ := r2
          rw [hr] at hok
          simp only [Except.ok.injEq, Prod.mk.injEq] at hok
          obtain ⟨h1, h2, h3⟩ := hok
          subst h1; subst h2
          obtain ⟨hck', hkeep, hrem, hsub⟩ := hkc
          have hkk : k' = k := hkeep rfl
          subst hkk
          obtain ⟨hcr', hs0, hsum⟩ := kids_counts f rest st2 hr hcr
          refine ⟨by simp [countsCorrectList, hck', hcr'], hs0, ?_⟩
          simp only [leafCountList]
          push_cast
          omega
      | RemoveKid =>
        rw [filterKids_cons_remove f k rest st st2 k' hk] at hok
        cases hr : filterKids f rest st2 with
        | error e => rw [hr] at hok; simp at hok
        | ok r2 =>
          obtain ⟨rest', sub2, st3⟩ := r2
          rw [hr] at hok
          simp only [Except.ok.injEq, Prod.mk.injEq] at hok
          obtain ⟨h1, h2, h3⟩ := hok
          subst h1; subst h2
          obtain ⟨hck', hkeep, hrem, hsub⟩ := hkc
          obtain ⟨hkk, hone⟩ := hrem rfl
          obtain ⟨hcr', hs0, hsum⟩ := kids_counts f rest st2 hr hcr
          refine ⟨hcr', by omega, ?_⟩
          simp only [leafCountList]
          push_cast
          omega
      | Subtree n =>
        rw [filterKids_cons_subtree f k rest st st2 k' n hk] at hok
        cases hr : filterKids f rest st2 with
        | error e => rw [hr] at hok; simp at hok
        | ok r2 =>
          obtain ⟨rest', sub2, st3⟩ := r2
          rw [hr] at hok
          simp only [Except.ok.injEq, Prod.mk.injEq] at hok
          obtain ⟨h1, h2, h3⟩ := hok
          subst h1; subst h2
          obtain ⟨hck', hkeep, hrem, hsub⟩ := hkc
          obtain ⟨hn0, hsum1⟩ := hsub n rfl
          obtain ⟨hcr', hs0, hsum⟩ := kids_counts f rest st2 hr hcr
          refine ⟨by simp [countsCorrectList, hck', hcr'], by omega, ?_⟩
          simp only [leafCountList]
          push_cast
          omega

end

/-- C1: for every input subtree whose `Pages` nodes all carry `/Count` equal
to the number of leaf descendants reachable under them, and for every
invocation of the filter that completes on it, the output subtree again has
every `Pages` node's `/Count` equal to the number of leaf descendants
actually reachable under it, and an interior result reports a deleted-count
that exactly accounts for the change.  Because the theorem holds for every
recursive invocation and a node's single `/Count` mutation (`main.rs:63-67`)
is the final write under that node, the equality holds at the moment of
every Count mutation the filter performs, not just at the end of the
traversal. -/
theorem c1_count_invariant {σ : Type} (f : σ → PTree → Bool × σ) (t : PTree) (st : σ)
    (act : FilterAction) (t' : PTree) (st' : σ)
    (hc : countsCorrect t = true)
    (hok : filter_page_tree_helper f t st = .ok (act, t', st')) :
    countsCorrect t' = true ∧
    (∀ n, act = .Subtree n → 0 ≤ n ∧ (leafCount t' : Int) + n = (leafCount t : Int)) := by
  obtain ⟨h1, _, _, h4⟩ := helper_counts f t st hok hc
  exact ⟨h1, h4⟩

/-- C1 witness: a `Pages` node with one non-matching `Page` kid and
`/Count 1`; after filtering, the kid is deleted, the reported deleted-count
is `1`, and the `/Count` field has been rewritten to `0`, which is again the
exact number of remaining leaves. -/
theorem c1_witness :
    countsCorrect (.mk (some "Pages") none
      (.present (.cons (.mk (some "Page") none .absent none) .nil)) (some 1)) = true
    ∧ countsCorrect (.mk (some "Pages") none (.present .nil) (some 0)) = true := by
  have h := c1_count_invariant (σ := Unit) (fun st _ => (false, st))
    (.mk (some "Pages") none
      (.present (.cons (.mk (some "Page") none .absent none) .nil)) (some 1)) ()
    (.Subtree 1) (.mk (some "Pages") none (.present .nil) (some 0)) ()
    (by simp [countsCorrect, countsCorrectList, leafCountList, leafCount])
    (by simp [filter_page_tree_helper, filterKids])
  exact ⟨by simp [countsCorrect, countsCorrectList, leafCountList, leafCount], h.1⟩

/-! ### Flattening the traversal to the document-order leaf sequence -/

theorem leafSeq_untyped (c : Option LeafContent) (kids : Kids) (cnt : Option Int) :
    leafSeq (.mk none c kids cnt) = [] := by
  simp [leafSeq]

theorem leafSeq_page (c : Option LeafContent) (kids : Kids) (cnt : Option Int) :
    leafSeq (.mk (some "Page") c kids cnt) = [.mk (some "Page") c kids cnt] := by
  simp [leafSeq]

theorem leafSeq_pages_absent (c : Option LeafContent) (cnt : Option Int) :
    leafSeq (.mk (some "Pages") c .absent cnt) = [] := by
  simp [leafSeq]

theorem leafSeq_pages (c : Option LeafContent) (ks : PTreeList) (cnt : Option Int) :
    leafSeq (.mk (some "Pages") c (.present ks) cnt) = leafSeqList ks := by
  simp [leafSeq]

theorem leafSeq_other (tn : String) (c : Option LeafContent) (kids : Kids) (cnt : Option Int)
    (h1 : ¬ tn = "Page") (h2 : ¬ tn = "Pages") :
    leafSeq (.mk (some tn) c kids cnt) = [] := by
  have h1' : ¬ (some tn = (some "Page" : Option String)) := by simp [h1]
  have h2' : ¬ (some tn = (some "Pages" : Option String)) := by simp [h2]
  cases kids with
  | absent => rw [leafSeq.eq_1, if_neg h1', if_neg h2']
  | present ks => rw [leafSeq.eq_2, if_neg h1', if_neg h2']

theorem statesFold_nil {σ : Type} (f : σ → PTree → Bool × σ) (st : σ) :
    statesFold f st [] = st := rfl

theorem statesFold_cons {σ : Type} (f : σ → PTree → Bool × σ) (st : σ) (p : PTree)
    (rest : List PTree) :
    statesFold f st (p :: rest) = statesFold f (f st p).2 rest := rfl

theorem statesFold_append {σ : Type} (f : σ → PTree → Bool × σ) (st : σ)
    (a b : List PTree) :
    statesFold f st (a ++ b) = statesFold f (statesFold f st a) b := by
  simp [statesFold, List.foldl_append]

theorem keptFold_cons {σ : Type} (f : σ → PTree → Bool × σ) (st : σ) (p : PTree)
    (rest : List PTree) :
    keptFold f st (p :: rest) =
      if (f st p).1 then p :: keptFold f (f st p).2 rest
      else keptFold f (f st p).2 rest := by
  cases hf : f st p with
  | mk b st2 => simp [keptFold, hf]

theorem keptFold_append {σ : Type} (f : σ → PTree → Bool × σ) (st : σ)
    (a b : List PTree) :
    keptFold f st (a ++ b) = keptFold f st a ++ keptFold f (statesFold f st a) b := by
  induction a generalizing st with
  | nil => simp [keptFold, statesFold]
  | cons p ps ih =>
    rw [List.cons_append, keptFold_cons, keptFold_cons, statesFold_cons, ih]
    by_cases hb : (f st p).1 = true
    · rw [if_pos hb, if_pos hb, List.cons_append]
    · rw [if_neg hb, if_neg hb]

theorem helper_pages_subtree {σ : Type} (f : σ → PTree → Bool × σ) (c : Option LeafContent)
    (kids : Kids) (cnt : Option Int) (st : σ) {act : FilterAction} {t' : PTree} {st' : σ}
    (hok : filter_page_tree_helper f (.mk (some "Pages") c kids cnt) st = .ok (act, t', st')) :
    ∃ n, act = .Subtree n := by
  cases kids with
  | absent =>
    rw [helper_eq_pages_absent] at hok
    simp only [Except.ok.injEq, Prod.mk.injEq] at hok
    exact ⟨0, hok.1.symm⟩
  | present ks =>
    rw [helper_eq_pages] at hok
    cases hks : filterKids f ks st with
    | error e => rw [hks] at hok; simp at hok
    | ok r =>
      obtain ⟨ks', sub, st2⟩ := r
      rw [hks] at hok
      by_cases hpos : sub > 0
      · simp only [hpos, if_true] at hok
        cases cnt with
        | none => simp at hok
        | some cv =>
          simp only [Except.ok.injEq, Prod.mk.injEq] at hok
          exact ⟨sub, hok.1.symm⟩
      · simp only [hpos, if_false] at hok
        simp only [Except.ok.injEq, Prod.mk.injEq] at hok
        exact ⟨sub, hok.1.symm⟩

mutual

theorem helper_flatten {σ : Type} (f : σ → PTree → Bool × σ) (t : PTree) (st : σ)
    {act : FilterAction} {t' : PTree} {st' : σ}
    (hok : filter_page_tree_helper f t st = .ok (act, t', st')) :
    st' = statesFold f st (leafSeq t) ∧
    (act = .KeepKid → t' = t ∧ leafSeq t = [t] ∧ (f st t).1 = true) ∧
    (act = .RemoveKid → t' = t ∧ leafSeq t = [t] ∧ (f st t).1 = false) ∧
    (∀ n, act = .Subtree n → leafSeq t' = keptFold f st (leafSeq t)) := by
  cases t with
  | mk ty c kids cnt =>
    cases ty with
    | none =>
      rw [helper_eq_untyped] at hok
      simp only [Except.ok.injEq, Prod.mk.injEq] at hok
      obtain ⟨h1, h2, h3⟩ := hok
      subst h1; subst h2; subst h3
      rw [leafSeq_untyped]
      refine ⟨rfl, ?_, ?_, ?_⟩
      · intro h; simp at h
      · intro h; simp at h
      · intro n hn
        simp [keptFold]
    | some tn =>
      by_cases hP : tn = "Page"
      · subst hP
        rw [helper_eq_page] at hok
        simp only [Except.ok.injEq, Prod.mk.injEq] at hok
        obtain ⟨h1, h2, h3⟩ := hok
        subst h2; subst h3; subst h1
        rw [leafSeq_page]
        by_cases hb : (f st (.mk (some "Page") c kids cnt)).1 = true
        · rw [if_pos hb]
          refine ⟨rfl, ?_, ?_, ?_⟩
          · intro h
            exact ⟨rfl, leafSeq_page c kids cnt, hb⟩
          · intro h; simp at h
          · intro n hn; simp at hn
        · rw [if_neg hb]
          refine ⟨rfl, ?_, ?_, ?_⟩
          · intro h; simp at h
          · intro h
            refine ⟨rfl, leafSeq_page c kids cnt, ?_⟩
            simp [Bool.not_eq_true] at hb
            exact hb
          · intro n hn; simp at hn
      · by_cases hPs : tn = "Pages"
        · subst hPs
          cases kids with
          | absent =>
            rw [helper_eq_pages_absent] at hok
            simp only [Except.ok.injEq, Prod.mk.injEq] at hok
            obtain ⟨h1, h2, h3⟩ := hok
            subst h1; subst h2; subst h3
            rw [leafSeq_pages_absent]
            refine ⟨rfl, ?_, ?_, ?_⟩
            · intro h; simp at h
            · intro h; simp at h
            · intro n hn
              simp [keptFold]
          | present ks =>
            rw [helper_eq_pages] at hok
            cases hks : filterKids f ks st with
            | error e => rw [hks] at hok; simp at hok
            | ok r =>
              obtain ⟨ks', sub, st2⟩ := r
              rw [hks] at hok
              obtain ⟨hst2, hkept⟩ := kids_flatten f ks st hks
              by_cases hpos : sub > 0
              · simp only [hpos, if_true] at hok
                cases cnt with
                | none => simp at hok
                | some cv =>
                  simp only [Except.ok.injEq, Prod.mk.injEq] at hok
                  obtain ⟨h1, h2, h3⟩ := hok
                  subst h1; subst h2; subst h3
                  rw [leafSeq_pages]
                  refine ⟨hst2, ?_, ?_, ?_⟩
                  · intro h; simp at h
                  · intro h; simp at h
                  · intro n hn
                    rw [leafSeq_pages]
                    exact hkept
              · simp only [hpos, if_false] at hok
                simp only [Except.ok.injEq, Prod.mk.injEq] at hok
                obtain ⟨h1, h2, h3⟩ := hok
                subst h1; subst h2; subst h3
                rw [leafSeq_pages]
                refine ⟨hst2, ?_, ?_, ?_⟩
                · intro h; simp at h
                · intro h; simp at h
                · intro n hn
                  rw [leafSeq_pages]
                  exact hkept
        · rw [helper_eq_other f tn c kids cnt st hP hPs] at hok
          simp at hok

theorem kids_flatten {σ : Type} (f : σ → PTree → Bool × σ) (l : PTreeList) (st : σ)
    {l' : PTreeList} {sub : Int} {st' : σ}
    (hok : filterKids f l st = .ok (l', sub, st')) :
    st' = statesFold f st (leafSeqList l) ∧
    leafSeqList l' = keptFold f st (leafSeqList l) := by
  cases l with
  | nil =>
    rw [filterKids] at hok
    simp only [Except.ok.injEq, Prod.mk.injEq] at hok
    obtain ⟨h1, h2, h3⟩ := hok
    subst h1; subst h2; subst h3
    exact ⟨rfl, rfl⟩
  | cons k rest =>
    cases hk : filter_page_tree_helper f k st with
    | error e =>
      rw [filterKids_cons_err f k rest st e hk] at hok
      simp at hok
    | ok r =>
      obtain ⟨act, k', st2⟩ := r
      have hfl := helper_flatten f k st hk
      cases act with
      | KeepKid =>
        rw [filterKids_cons_keep f k rest st st2 k' hk] at hok
        cases hr : filterKids f rest st2 with
        | error e => rw [hr] at hok; simp at hok
        | ok r2 =>
          obtain ⟨rest', sub2, st3⟩ := r2
          rw [hr] at hok
          simp only [Except.ok.injEq, Prod.mk.injEq] at hok
          obtain ⟨h1, h2, h3⟩ := hok
          subst h1; subst h2; subst h3
          obtain ⟨hst2, hkc, _, _⟩ := hfl
          obtain ⟨hkk, hlk, hb⟩ := hkc rfl
          subst hkk
          obtain ⟨hst3, hkept3⟩ := kids_flatten f rest st2 hr
          subst hst2
          constructor
          · rw [hst3]
            simp only [leafSeqList]
            rw [statesFold_append]
          · simp only [leafSeqList]
            rw [hlk, keptFold_append, hkept3]
            rw [hlk]
            rw [keptFold_cons, if_pos hb]
            rfl
      | RemoveKid =>
        rw [filterKids_cons_remove f k rest st st2 k' hk] at hok
        cases hr : filterKids f rest st2 with
        | error e => rw [hr] at hok; simp at hok
        | ok r2 =>
          obtain ⟨rest', sub2, st3⟩ := r2
          rw [hr] at hok
          simp only [Except.ok.injEq, Prod.mk.injEq] at hok
          obtain ⟨h1, h2, h3⟩ := hok
          subst h1; subst h2; subst h3
          obtain ⟨hst2, _, hrc, _⟩ := hfl
          obtain ⟨hkk, hlk, hb⟩ := hrc rfl
          obtain ⟨hst3, hkept3⟩ := kids_flatten f rest st2 hr
          subst hst2
          constructor
          · rw [hst3]
            simp only [leafSeqList]
            rw [statesFold_append]
          · simp only [leafSeqList]
            rw [hlk, keptFold_append, hkept3]
            rw [hlk]
            rw [keptFold_cons, if_neg (by simp [hb])]
            rfl
      | Subtree n =>
        rw [filterKids_cons_subtree f k rest st st2 k' n hk] at hok
        cases hr : filterKids f rest st2 with
        | error e => rw [hr] at hok; simp at hok
        | ok r2 =>
          obtain ⟨rest', sub2, st3⟩ := r2
          rw [hr] at hok
          simp only [Except.ok.injEq, Prod.mk.injEq] at hok
          obtain ⟨h1, h2, h3⟩ := hok
          subst h1; subst h2; subst h3
          obtain ⟨hst2, _, _, hsc⟩ := hfl
          have hkept_k := hsc n rfl
          obtain ⟨hst3, hkept3⟩ := kids_flatten f rest st2 hr
          subst hst2
          constructor
          · rw [hst3]
            simp only [leafSeqList]
            rw [statesFold_append]
          · simp only [leafSeqList]
            rw [hkept_k, keptFold_append, hkept3]

end

/-! ### Claim C2: sticky label assignment -/

theorem keptFold_extractPred (nums : List Int) (st : MatchState) (l : List PTree) :
    keptFold (extractPred nums) st l = stickyKeep nums st.current_exercise_number l := by
  induction l generalizing st with
  | nil => rfl
  | cons p rest ih =>
    rw [keptFold_cons]
    cases hr : read_exercise_number p with
    | none =>
      have he : extractPred nums st p = (nums.contains st.current_exercise_number, st) := by
        simp [extractPred, hr]
      simp only [he]
      rw [show stickyKeep nums st.current_exercise_number (p :: rest)
          = if nums.contains st.current_exercise_number then
              p :: stickyKeep nums st.current_exercise_number rest
            else stickyKeep nums st.current_exercise_number rest from by
        simp [stickyKeep, hr]]
      by_cases hb : nums.contains st.current_exercise_number = true
      · rw [if_pos hb, if_pos hb, ih]
      · rw [if_neg hb, if_neg hb, ih]
    | some n =>
      have he : extractPred nums st p
          = (nums.contains n, ⟨n, removeFirstSwap n st.not_seen⟩) := by
        simp [extractPred, hr]
      simp only [he]
      rw [show stickyKeep nums st.current_exercise_number (p :: rest)
          = if nums.contains n then p :: stickyKeep nums n rest
            else stickyKeep nums n rest from by
        simp [stickyKeep, hr]]
      by_cases hb : nums.contains n = true
      · rw [if_pos hb, if_pos hb, ih ⟨n, removeFirstSwap n st.not_seen⟩]
      · rw [if_neg hb, if_neg hb, ih ⟨n, removeFirstSwap n st.not_seen⟩]

theorem stickyKeep_dropWhile_unlabeled (nums : List Int) (cur : Int) (l : List PTree)
    (hcur : nums.contains cur = false) :
    stickyKeep nums cur l
      = stickyKeep nums cur (l.dropWhile (fun p => (read_exercise_number p).isNone)) := by
  induction l with
  | nil => rfl
  | cons p rest ih =>
    cases hr : read_exercise_number p with
    | none =>
      rw [List.dropWhile_cons]
      simp only [hr, Option.isNone_none, if_true]
      rw [show stickyKeep nums cur (p :: rest) = stickyKeep nums cur rest from by
        have hnm : cur ∉ nums := by simpa using hcur
        simp [stickyKeep, hr, hnm]]
      exact ih
    | some n =>
      rw [List.dropWhile_cons]
      simp [hr]

/-- C2 (amended): when the page-tree root is an interior `Pages` node and the
filter driven by `ExerciseExtractor::extract`'s predicate completes, the
leaves of the output tree are exactly those computed by the spec's
sticky-assignment rule (`stickyKeep`): a leaf with no marker of its own is
matched against the label of the nearest preceding labeled page, starting
from the sentinel `-1`.  Moreover — and this is the amendment — *provided the
requested set does not contain the sentinel value `-1`*, the leaves visited
before any labeled page match nothing: dropping the unlabeled leading leaves
does not change the kept set.  (As stated, the original claim fails: if the
caller requests the label `-1`, the sentinel makes every leaf before the
first labeled page match; see the counterexample.) -/
theorem c2_sticky_assignment (t : PTree) (nums : List Int) (t' : PTree) (st' : MatchState)
    (hroot : t.typeName = some "Pages")
    (hok : filter_page_tree (extractPred nums) t ⟨-1, nums⟩ = .ok (t', st')) :
    leafSeq t' = stickyKeep nums (-1) (leafSeq t) ∧
    ((-1 : Int) ∉ nums →
      stickyKeep nums (-1) (leafSeq t)
        = stickyKeep nums (-1)
            ((leafSeq t).dropWhile (fun p => (read_exercise_number p).isNone))) := by
  unfold filter_page_tree at hok
  cases hh : filter_page_tree_helper (extractPred nums) t ⟨-1, nums⟩ with
  | error e => rw [hh] at hok; simp at hok
  | ok r =>
    obtain ⟨act, t2, st2⟩ := r
    rw [hh] at hok
    simp only [Except.ok.injEq, Prod.mk.injEq] at hok
    obtain ⟨h2, h3⟩ := hok
    subst h2; subst h3
    obtain ⟨ty, c, kids, cnt⟩ := t
    simp only [PTree.typeName] at hroot
    subst hroot
    obtain ⟨n, hact⟩ := helper_pages_subtree (extractPred nums) c kids cnt ⟨-1, nums⟩ hh
    subst hact
    have hfl := helper_flatten (extractPred nums) _ _ hh
    have hkept := hfl.2.2.2 n rfl
    constructor
    · rw [hkept, keptFold_extractPred]
    · intro hmem
      apply stickyKeep_dropWhile_unlabeled
      simpa using hmem

/-- C2 counterexample: the claim asserts that a leaf visited before any
labeled page "matches nothing (it is removed), regardless of which integers
the requested set contains".  With requested set `[-1]` — the sentinel value
of `current_exercise_number` (`main.rs:148`) — an unlabeled first page
matches and is kept: the filtered tree still contains the page (and the
state is unchanged), contradicting the claim at this concrete input. -/
theorem c2_sentinel_counterexample :
    filter_page_tree (extractPred [-1])
      (.mk (some "Pages") none
        (.present (.cons (.mk (some "Page") none .absent none) .nil)) (some 1))
      ⟨-1, [-1]⟩
    = .ok (.mk (some "Pages") none
        (.present (.cons (.mk (some "Page") none .absent none) .nil)) (some 1),
        ⟨-1, [-1]⟩) := by
  simp [filter_page_tree, filter_page_tree_helper, filterKids, extractPred,
    read_exercise_number, PTree.contentsField]

/-- C2 witness: the amended theorem applied to a one-page document with the
empty requested set: the single (unlabeled, hence sentinel-matched-nothing)
page is removed, and the output leaf sequence is exactly what the sticky
rule prescribes. -/
theorem c2_witness :
    leafSeq (.mk (some "Pages") none (.present .nil) (some 0))
      = stickyKeep [] (-1) (leafSeq (.mk (some "Pages") none
          (.present (.cons (.mk (some "Page") none .absent none) .nil)) (some 1))) := by
  have h := c2_sticky_assignment
    (.mk (some "Pages") none
      (.present (.cons (.mk (some "Page") none .absent none) .nil)) (some 1))
    [] (.mk (some "Pages") none (.present .nil) (some 0)) ⟨-1, []⟩
    rfl
    (by simp [filter_page_tree, filter_page_tree_helper, filterKids, extractPred,
      read_exercise_number, PTree.contentsField])
  exact h.1

/-! ### Claim C3: the not-seen bookkeeping -/

theorem swapRemove_perm_eraseIdx (l : List Int) (pos : Nat) (h : pos < l.length) :
    (swapRemove l pos).Perm (l.eraseIdx pos) := by
  rcases l.eq_nil_or_concat with rfl | ⟨L, x, rfl⟩
  · simp at h
  · rw [List.concat_eq_append] at h ⊢
    unfold swapRemove
    rw [List.getLast?_concat]
    show (((L ++ [x]).set pos x).dropLast).Perm ((L ++ [x]).eraseIdx pos)
    by_cases hp : pos < L.length
    · rw [List.set_append_left _ _ hp, List.dropLast_concat,
        List.eraseIdx_append_of_lt_length hp]
      rw [List.set_eq_take_cons_drop _ hp, List.eraseIdx_eq_take_drop_succ,
        List.append_assoc]
      exact List.Perm.append_left _ (List.perm_append_singleton _ _).symm
    · have hpe : pos = L.length := by
        simp only [List.length_append, List.length_cons, List.length_nil] at h
        omega
      subst hpe
      rw [List.set_append_right _ _ (le_refl _)]
      simp only [Nat.sub_self, List.set_cons_zero, List.dropLast_concat]
      rw [List.eraseIdx_append_of_length_le (le_refl _)]
      simp

theorem swapRemove_cons_succ (a : Int) (t : List Int) (pos : Nat) (h : pos < t.length) :
    swapRemove (a :: t) (pos + 1) = a :: swapRemove t pos := by
  rcases t.eq_nil_or_concat with rfl | ⟨L, x, rfl⟩
  · simp at h
  · rw [List.concat_eq_append] at h ⊢
    unfold swapRemove
    rw [show a :: (L ++ [x]) = (a :: L) ++ [x] from rfl, List.getLast?_concat,
      List.getLast?_concat]
    show (((a :: L) ++ [x]).set (pos + 1) x).dropLast
        = a :: (((L ++ [x]).set pos x).dropLast)
    by_cases hp : pos < L.length
    · rw [List.set_append_left _ _ (by simp; omega), List.set_append_left _ _ hp,
        List.dropLast_concat, List.dropLast_concat, List.set_cons_succ]
    · have hpe : pos = L.length := by
        simp only [List.length_append, List.length_cons, List.length_nil] at h
        omega
      subst hpe
      rw [List.set_append_right _ _ (by simp), List.set_append_right _ _ (le_refl _)]
      simp only [List.length_cons, Nat.sub_self, List.set_cons_zero]
      rw [List.dropLast_concat, List.dropLast_concat]

theorem removeFirstSwap_perm_erase (n : Int) (l : List Int) :
    (removeFirstSwap n l).Perm (l.erase n) := by
  induction l with
  | nil => rfl
  | cons a t ih =>
    by_cases hb : a = n
    · subst hb
      have hf : (a :: t).findIdx? (· == a) = some 0 := by
        simp [List.findIdx?_cons]
      unfold removeFirstSwap
      rw [hf, List.erase_cons_head]
      -- swapRemove (a :: t) 0 ~ t
      have := swapRemove_perm_eraseIdx (a :: t) 0 (by simp)
      simpa using this
    · have hba : ¬ ((a == n) = true) := by simpa using hb
      rw [List.erase_cons_tail (by simpa using hb)]
      cases hft : t.findIdx? (· == n) with
      | none =>
        have hnm : n ∉ t := by
          rw [List.findIdx?_eq_none_iff] at hft
          intro hm
          simpa using hft n hm
        unfold removeFirstSwap
        rw [List.findIdx?_cons, if_neg hba, List.findIdx?_succ, hft,
          List.erase_of_not_mem hnm]
        exact List.Perm.refl _
      | some pos =>
        have hlen : pos < t.length := by
          rw [List.findIdx?_eq_some_iff_getElem] at hft
          exact hft.1
        unfold removeFirstSwap
        rw [List.findIdx?_cons, if_neg hba, List.findIdx?_succ, hft]
        show (swapRemove (a :: t) (pos + 1)).Perm (a :: t.erase n)
        rw [swapRemove_cons_succ a t pos hlen]
        refine List.Perm.cons a ?_
        have iht := ih
        unfold removeFirstSwap at iht
        rw [hft] at iht
        exact iht

theorem removeFirstSwap_nodup (n : Int) (l : List Int) (h : l.Nodup) :
    (removeFirstSwap n l).Nodup :=
  ((removeFirstSwap_perm_erase n l).nodup_iff).mpr (List.Nodup.erase n h)

theorem mem_removeFirstSwap (n : Int) (l : List Int) (h : l.Nodup) (m : Int) :
    m ∈ removeFirstSwap n l ↔ m ∈ l ∧ m ≠ n := by
  rw [(removeFirstSwap_perm_erase n l).mem_iff, List.Nodup.mem_erase_iff h]
  tauto

theorem statesFold_not_seen (nums : List Int) (l : List PTree) (st : MatchState)
    (hnd : st.not_seen.Nodup) :
    (statesFold (extractPred nums) st l).not_seen.Nodup ∧
    (∀ m : Int, m ∈ (statesFold (extractPred nums) st l).not_seen ↔
      m ∈ st.not_seen ∧ m ∉ l.filterMap read_exercise_number) := by
  induction l generalizing st with
  | nil =>
    refine ⟨hnd, fun m => ?_⟩
    simp [statesFold]
  | cons p rest ih =>
    rw [statesFold_cons]
    cases hr : read_exercise_number p with
    | none =>
      have he2 : (extractPred nums st p).2 = st := by simp [extractPred, hr]
      rw [he2]
      obtain ⟨h1, h2⟩ := ih st hnd
      refine ⟨h1, fun m => ?_⟩
      rw [h2 m]
      simp [List.filterMap_cons, hr]
    | some n =>
      have he2 : (extractPred nums st p).2 = ⟨n, removeFirstSwap n st.not_seen⟩ := by
        simp [extractPred, hr]
      rw [he2]
      have hnd' : (removeFirstSwap n st.not_seen).Nodup :=
        removeFirstSwap_nodup n st.not_seen hnd
      obtain ⟨h1, h2⟩ := ih ⟨n, removeFirstSwap n st.not_seen⟩ hnd'
      refine ⟨h1, fun m => ?_⟩
      rw [h2 m]
      show m ∈ removeFirstSwap n st.not_seen ∧ _ ↔ _
      rw [mem_removeFirstSwap n st.not_seen hnd m]
      simp only [List.filterMap_cons, hr, List.mem_cons]
      constructor
      · rintro ⟨⟨hm, hne⟩, hno⟩
        exact ⟨hm, fun hc => hc.elim (fun hc1 => hne hc1) hno⟩
      · rintro ⟨hm, hno⟩
        exact ⟨⟨hm, fun hc => hno (Or.inl hc)⟩, fun hc => hno (Or.inr hc)⟩

/-- C3: `extract` fails with `MissingExercise` iff the filtering traversal
completes and some requested label is never parsed by the scanner on any
visited leaf; on this failure path no output document is produced (the
single `doc.write_to` call at `main.rs:168` is only reached on the success
path, which the model renders as the `success` payload), and the gateway
maps `MissingExercise` to a not-found response (`main.rs:248`).  The `Nodup`
hypothesis encodes that the requested labels form a set (spec §3
`RequestedSet`; the gateway rejects duplicate lists before calling
`extract`). -/
theorem c3_missing_exercise_iff (t : PTree) (nums : List Int) (hnd : nums.Nodup) :
    (extract ⟨true, some t⟩ nums = .missingExercise ↔
      ((∃ r, filter_page_tree (extractPred nums) t ⟨-1, nums⟩ = .ok r) ∧
       ∃ m, m ∈ nums ∧ m ∉ (leafSeq t).filterMap read_exercise_number)) ∧
    (extract ⟨true, some t⟩ nums = .missingExercise →
      respond (extract ⟨true, some t⟩ nums) = .notFound) ∧
    (∀ d, extract ⟨true, some t⟩ nums = .missingExercise →
      extract ⟨true, some t⟩ nums ≠ .success d) := by
  have hext : extract ⟨true, some t⟩ nums
      = (match filter_page_tree (extractPred nums) t ⟨-1, nums⟩ with
         | .error e => .panicked e
         | .ok (tree', st') =>
            if st'.not_seen.isEmpty then .success tree' else .missingExercise) := by
    simp [extract]
  refine ⟨?_, ?_, ?_⟩
  · cases hfp : filter_page_tree (extractPred nums) t ⟨-1, nums⟩ with
    | error e =>
      rw [hfp] at hext
      constructor
      · intro hm
        rw [hext] at hm
        simp at hm
      · rintro ⟨⟨r, hr⟩, -⟩
        simp at hr
    | ok r =>
      obtain ⟨t2, st2⟩ := r
      rw [hfp] at hext
      have hst2 : st2 = statesFold (extractPred nums) ⟨-1, nums⟩ (leafSeq t) := by
        unfold filter_page_tree at hfp
        cases hh : filter_page_tree_helper (extractPred nums) t ⟨-1, nums⟩ with
        | error e => rw [hh] at hfp; simp at hfp
        | ok r2 =>
          obtain ⟨act, t3, st3⟩ := r2
          rw [hh] at hfp
          simp only [Except.ok.injEq, Prod.mk.injEq] at hfp
          obtain ⟨h2, h3⟩ := hfp
          subst h3
          exact (helper_flatten (extractPred nums) t ⟨-1, nums⟩ hh).1
      obtain ⟨hndp, hmem⟩ :=
        statesFold_not_seen nums (leafSeq t) ⟨-1, nums⟩ hnd
      constructor
      · intro hm
        rw [hext] at hm
        by_cases he : st2.not_seen.isEmpty = true
        · simp [he] at hm
        · refine ⟨⟨(t2, st2), rfl⟩, ?_⟩
          have hne : st2.not_seen ≠ [] := by
            intro h0
            rw [h0] at he
            simp at he
          obtain ⟨m, hm2⟩ := List.exists_mem_of_ne_nil _ hne
          rw [hst2] at hm2
          have hmi := (hmem m).mp hm2
          exact ⟨m, hmi.1, hmi.2⟩
      · rintro ⟨-, m, hmnums, hmobs⟩
        rw [hext]
        have hmm2 : m ∈ st2.not_seen := by
          rw [hst2]
          exact (hmem m).mpr ⟨hmnums, hmobs⟩
        have hne : ¬ st2.not_seen.isEmpty = true := by
          intro he
          rw [List.isEmpty_iff] at he
          rw [he] at hmm2
          cases hmm2
        show (if st2.not_seen.isEmpty = true then ExtractOutcome.success t2
          else ExtractOutcome.missingExercise) = ExtractOutcome.missingExercise
        rw [if_neg hne]
  · intro h
    rw [h]
    rfl
  · intro d h
    rw [h]
    simp

/-- C3 witness: requesting label `7` from a document with no pages at all
yields `MissingExercise`, mapped to not-found, via `c3_missing_exercise_iff`
with its hypotheses discharged. -/
theorem c3_witness :
    extract ⟨true, some (.mk (some "Pages") none (.present .nil) (some 0))⟩ [7]
      = .missingExercise
    ∧ respond (extract ⟨true, some (.mk (some "Pages") none (.present .nil) (some 0))⟩ [7])
      = .notFound := by
  have h := c3_missing_exercise_iff
    (.mk (some "Pages") none (.present .nil) (some 0)) [7] (by decide)
  have he : extract ⟨true, some (.mk (some "Pages") none (.present .nil) (some 0))⟩ [7]
      = .missingExercise := by
    simp [extract, filter_page_tree, filter_page_tree_helper, filterKids]
  exact ⟨he, h.2.1 he⟩

/-! ### Claim C4: unrecognized node types abort the extraction -/

mutual

theorem helper_bad {σ : Type} (f : σ → PTree → Bool × σ) (t : PTree) (st : σ)
    (hb : hasBadType t = true) :
    ∃ e, filter_page_tree_helper f t st = .error e := by
  cases t with
  | mk ty c kids cnt =>
    cases ty with
    | none => simp [hasBadType] at hb
    | some tn =>
      by_cases hP : tn = "Page"
      · subst hP
        simp [hasBadType] at hb
      · by_cases hPs : tn = "Pages"
        · subst hPs
          cases kids with
          | absent => simp [hasBadType] at hb
          | present ks =>
            have hbl : hasBadTypeList ks = true := by
              simpa [hasBadType] using hb
            obtain ⟨e, he⟩ := kids_bad f ks st hbl
            refine ⟨e, ?_⟩
            rw [helper_eq_pages, he]
        · exact ⟨.invalidType, helper_eq_other f tn c kids cnt st hP hPs⟩

theorem kids_bad {σ : Type} (f : σ → PTree → Bool × σ) (l : PTreeList) (st : σ)
    (hb : hasBadTypeList l = true) :
    ∃ e, filterKids f l st = .error e := by
  cases l with
  | nil => simp [hasBadTypeList] at hb
  | cons k rest =>
    have hb' : hasBadType k = true ∨ hasBadTypeList rest = true := by
      simpa [hasBadTypeList, Bool.or_eq_true] using hb
    cases hko : filter_page_tree_helper f k st with
    | error e => exact ⟨e, filterKids_cons_err f k rest st e hko⟩
    | ok r =>
      obtain ⟨act, k', st2⟩ := r
      rcases hb' with hbk | hbr
      · obtain ⟨e, he⟩ := helper_bad f k st hbk
        rw [he] at hko
        simp at hko
      · obtain ⟨e, he⟩ := kids_bad f rest st2 hbr
        cases act with
        | KeepKid =>
          exact ⟨e, by rw [filterKids_cons_keep f k rest st st2 k' hko, he]⟩
        | RemoveKid =>
          exact ⟨e, by rw [filterKids_cons_remove f k rest st st2 k' hko, he]⟩
        | Subtree n =>
          exact ⟨e, by rw [filterKids_cons_subtree f k rest st st2 k' n hko, he]⟩

end

/-- C4 (amended): whenever a node with a type name other than `Page`/`Pages`
is reachable in the region the filter visits, the extraction aborts
immediately with a panic and produces no output document; the panic is not
converted into any HTTP response for the same request — in particular it is
not surfaced as an internal-error response (the `match` of `main.rs:247-251`
only maps `Err` values; a `panic!` unwinds past it).  This amends the
original claim, which asserted an internal-error response for the same
request; see the counterexample. -/
theorem c4_bad_type_panics (t : PTree) (hb : hasBadType t = true) :
    (∀ nums, ∃ e, extract ⟨true, some t⟩ nums = .panicked e) ∧
    (∀ path nums, parseRequest path = some nums →
      handle ⟨true, some t⟩ path = .panicked) ∧
    (∀ nums d, extract ⟨true, some t⟩ nums ≠ .success d) := by
  have hpan : ∀ nums, ∃ e, extract ⟨true, some t⟩ nums = .panicked e := by
    intro nums
    obtain ⟨e, he⟩ := helper_bad (extractPred nums) t ⟨-1, nums⟩ hb
    have hfp : filter_page_tree (extractPred nums) t ⟨-1, nums⟩ = .error e := by
      unfold filter_page_tree
      rw [he]
    exact ⟨e, by simp [extract, hfp]⟩
  refine ⟨hpan, ?_, ?_⟩
  · intro path nums hpr
    unfold handle
    rw [hpr]
    show respond (extract ⟨true, some t⟩ nums) = HttpOutcome.panicked
    obtain ⟨e, he⟩ := hpan nums
    rw [he]
    rfl
  · intro nums d hsucc
    obtain ⟨e, he⟩ := hpan nums
    rw [he] at hsucc
    simp at hsucc

/-- C4 counterexample: the original claim says the structural error is
"surfaced to the external caller of the same request as an internal-error
response".  On this concrete document, whose page tree contains a node of
type `Foo`, the request `/1` ends in a panic with no response — the outcome
is not the internal-error response the claim requires. -/
theorem c4_counterexample :
    handle ⟨true, some (.mk (some "Pages") none
        (.present (.cons (.mk (some "Foo") none .absent none) .nil)) (some 1))⟩
      "/1".data = .panicked
    ∧ (HttpOutcome.panicked ≠ HttpOutcome.internalServerError) := by
  constructor
  · have hpr : parseRequest "/1".data = some [1] := by decide
    unfold handle
    rw [hpr]
    show respond (extract ⟨true, some (.mk (some "Pages") none
        (.present (.cons (.mk (some "Foo") none .absent none) .nil)) (some 1))⟩ [1])
      = HttpOutcome.panicked
    have he : extract ⟨true, some (.mk (some "Pages") none
        (.present (.cons (.mk (some "Foo") none .absent none) .nil)) (some 1))⟩ [1]
        = .panicked .invalidType := by
      simp [extract, filter_page_tree, filter_page_tree_helper, filterKids]
    rw [he]
    rfl
  · simp

/-- C4 witness: `c4_bad_type_panics` applied to the same bad-typed document,
with both hypotheses discharged concretely. -/
theorem c4_witness :
    (∃ e, extract ⟨true, some (.mk (some "Pages") none
        (.present (.cons (.mk (some "Foo") none .absent none) .nil)) (some 1))⟩ [1]
      = .panicked e)
    ∧ handle ⟨true, some (.mk (some "Pages") none
        (.present (.cons (.mk (some "Foo") none .absent none) .nil)) (some 1))⟩
        "/2,3".data = .panicked := by
  have h := c4_bad_type_panics
    (.mk (some "Pages") none
      (.present (.cons (.mk (some "Foo") none .absent none) .nil)) (some 1))
    (by simp [hasBadType, hasBadTypeList])
  exact ⟨h.1 [1], h.2.1 "/2,3".data [2, 3] (by decide)⟩

/-! ### Claim C5: the child loop, index-and-delete form vs recursion -/

theorem ofList_toList (l : PTreeList) : PTreeList.ofList (PTreeList.toList l) = l := by
  cases l with
  | nil => rfl
  | cons k rest => simp [PTreeList.toList, PTreeList.ofList, ofList_toList rest]

theorem getElem_append_cons (done : List PTree) (k : PTree) (t : List PTree)
    (h : done.length < (done ++ k :: t).length) :
    (done ++ k :: t)[done.length] = k := by
  induction done with
  | nil => rfl
  | cons d ds ih =>
    simp only [List.cons_append, List.length_cons, List.getElem_cons_succ]
    exact ih (by simp)

theorem set_append_cons (done : List PTree) (k k' : PTree) (t : List PTree) :
    (done ++ k :: t).set done.length k' = done ++ k' :: t := by
  induction done with
  | nil => rfl
  | cons d ds ih =>
    simp only [List.cons_append, List.length_cons, List.set_cons_succ, ih]

theorem eraseIdx_append_cons (done : List PTree) (k : PTree) (t : List PTree) :
    (done ++ k :: t).eraseIdx done.length = done ++ t := by
  induction done with
  | nil => rfl
  | cons d ds ih =>
    simp only [List.cons_append, List.length_cons, List.eraseIdx_cons_succ, ih]

theorem kidsLoopIdx_base {σ : Type}
    (g : PTree → σ → Except PanicMsg (FilterAction × PTree × σ))
    (kids : List PTree) (i : Nat) (acc : Int) (st : σ) (h : ¬ i < kids.length) :
    kidsLoopIdx g kids i acc st = .ok (kids, acc, st) := by
  rw [kidsLoopIdx.eq_def, dif_neg h]

theorem kidsLoopIdx_step_err {σ : Type}
    (g : PTree → σ → Except PanicMsg (FilterAction × PTree × σ))
    (kids : List PTree) (i : Nat) (acc : Int) (st : σ) (h : i < kids.length)
    (e : PanicMsg) (hg : g kids[i] st = .error e) :
    kidsLoopIdx g kids i acc st = .error e := by
  rw [kidsLoopIdx.eq_def, dif_pos h, hg]

theorem kidsLoopIdx_step_keep {σ : Type}
    (g : PTree → σ → Except PanicMsg (FilterAction × PTree × σ))
    (kids : List PTree) (i : Nat) (acc : Int) (st : σ) (h : i < kids.length)
    (k' : PTree) (st2 : σ) (hg : g kids[i] st = .ok (.KeepKid, k', st2)) :
    kidsLoopIdx g kids i acc st = kidsLoopIdx g (kids.set i k') (i + 1) acc st2 := by
  rw [kidsLoopIdx.eq_def, dif_pos h, hg]

theorem kidsLoopIdx_step_remove {σ : Type}
    (g : PTree → σ → Except PanicMsg (FilterAction × PTree × σ))
    (kids : List PTree) (i : Nat) (acc : Int) (st : σ) (h : i < kids.length)
    (k' : PTree) (st2 : σ) (hg : g kids[i] st = .ok (.RemoveKid, k', st2)) :
    kidsLoopIdx g kids i acc st = kidsLoopIdx g (kids.eraseIdx i) i (acc + 1) st2 := by
  rw [kidsLoopIdx.eq_def, dif_pos h, hg]

theorem kidsLoopIdx_step_subtree {σ : Type}
    (g : PTree → σ → Except PanicMsg (FilterAction × PTree × σ))
    (kids : List PTree) (i : Nat) (acc : Int) (st : σ) (h : i < kids.length)
    (n : Int) (k' : PTree) (st2 : σ) (hg : g kids[i] st = .ok (.Subtree n, k', st2)) :
    kidsLoopIdx g kids i acc st = kidsLoopIdx g (kids.set i k') (i + 1) (acc + n) st2 := by
  rw [kidsLoopIdx.eq_def, dif_pos h, hg]

theorem kidsLoopIdx_bridge {σ : Type} (f : σ → PTree → Bool × σ) (todo : PTreeList) :
    ∀ (done : List PTree) (acc : Int) (st : σ),
      kidsLoopIdx (filter_page_tree_helper f) (done ++ todo.toList) done.length acc st =
        match filterKids f todo st with
        | .error e => .error e
        | .ok (l', sub, st') => .ok (done ++ l'.toList, acc + sub, st') := by
  cases todo with
  | nil =>
    intro done acc st
    rw [filterKids]
    rw [kidsLoopIdx_base _ _ _ _ _ (by simp [PTreeList.toList])]
    simp [PTreeList.toList]
  | cons k rest =>
    intro done acc st
    have ih := kidsLoopIdx_bridge f rest
    simp only [PTreeList.toList]
    have hlt : done.length < (done ++ k :: rest.toList).length := by simp
    cases hk : filter_page_tree_helper f k st with
    | error e =>
      rw [kidsLoopIdx_step_err (filter_page_tree_helper f) _ _ acc st hlt e
          (by rw [getElem_append_cons done k rest.toList hlt]; exact hk)]
      rw [filterKids_cons_err f k rest st e hk]
    | ok r =>
      obtain ⟨act, k', st2⟩ := r
      cases act with
      | KeepKid =>
        rw [kidsLoopIdx_step_keep (filter_page_tree_helper f) _ _ acc st hlt k' st2
            (by rw [getElem_append_cons done k rest.toList hlt]; exact hk)]
        rw [set_append_cons done k k' rest.toList]
        rw [show done ++ k' :: rest.toList = (done ++ [k']) ++ rest.toList by simp]
        rw [show done.length + 1 = (done ++ [k']).length by simp]
        rw [ih (done ++ [k']) acc st2]
        rw [filterKids_cons_keep f k rest st st2 k' hk]
        cases hr : filterKids f rest st2 with
        | error e => rfl
        | ok r2 =>
          obtain ⟨l2, sub2, st3⟩ := r2
          simp [PTreeList.toList]
      | RemoveKid =>
        rw [kidsLoopIdx_step_remove (filter_page_tree_helper f) _ _ acc st hlt k' st2
            (by rw [getElem_append_cons done k rest.toList hlt]; exact hk)]
        rw [eraseIdx_append_cons done k rest.toList]
        rw [ih done (acc + 1) st2]
        rw [filterKids_cons_remove f k rest st st2 k' hk]
        cases hr : filterKids f rest st2 with
        | error e => rfl
        | ok r2 =>
          obtain ⟨l2, sub2, st3⟩ := r2
          simp only []
          rw [show acc + 1 + sub2 = acc + (1 + sub2) by omega]
      | Subtree n =>
        rw [kidsLoopIdx_step_subtree (filter_page_tree_helper f) _ _ acc st hlt n k' st2
            (by rw [getElem_append_cons done k rest.toList hlt]; exact hk)]
        rw [set_append_cons done k k' rest.toList]
        rw [show done ++ k' :: rest.toList = (done ++ [k']) ++ rest.toList by simp]
        rw [show done.length + 1 = (done ++ [k']).length by simp]
        rw [ih (done ++ [k']) (acc + n) st2]
        rw [filterKids_cons_subtree f k rest st st2 k' n hk]
        cases hr : filterKids f rest st2 with
        | error e => rfl
        | ok r2 =>
          obtain ⟨l2, sub2, st3⟩ := r2
          simp [PTreeList.toList]
          omega

/-- C5: on an interior (`Pages`) node with a kids array, the filter is
exactly the source's indexed loop (`kidsLoopIdx`, the literal rendering of
`main.rs:47-62`): children are visited strictly left to right; a
`RemoveKid` outcome deletes the child at the current index, does not advance
the index (so the shifted-down successor is visited next) and adds one to
the running deleted-count; a `SubtreeResult(n)` outcome adds `n` and
advances; and the node's returned `SubtreeResult` carries exactly the loop's
accumulated total (after the `/Count` post-processing of `main.rs:63-67`). -/
theorem c5_loop_equiv {σ : Type} (f : σ → PTree → Bool × σ) (c : Option LeafContent)
    (ks : PTreeList) (cnt : Option Int) (st : σ) :
    filter_page_tree_helper f (.mk (some "Pages") c (.present ks) cnt) st =
      match kidsLoopIdx (filter_page_tree_helper f) ks.toList 0 0 st with
      | .error e => .error e
      | .ok (l', sub, st') =>
        if sub > 0 then
          match cnt with
          | none => .error .missingCount
          | some cv =>
            .ok (.Subtree sub,
              .mk (some "Pages") c (.present (PTreeList.ofList l')) (some (cv - sub)), st')
        else
          .ok (.Subtree sub,
            .mk (some "Pages") c (.present (PTreeList.ofList l')) cnt, st') := by
  have hb := kidsLoopIdx_bridge f ks [] 0 st
  simp only [List.nil_append, List.length_nil] at hb
  rw [helper_eq_pages, hb]
  cases hks : filterKids f ks st with
  | error e => rfl
  | ok r =>
    obtain ⟨l2, sub2, st3⟩ := r
    simp only [zero_add]
    rw [ofList_toList]
